import Mathlib

/-!
Verification of the highlight-event-to-HTML rendering pipeline of the
`viz-rs/highlighting` crate (`src/lib.rs`) against its specification.

The crate itself is a thin wrapper: `Languages` (a registry keyed by a
language identifier), `insert_with_names`, `names_to_classes` and `render`
live in `src/lib.rs` and are embedded here directly.  The event-stream
renderer (`HtmlRenderer`) and the tokenizer (`Highlighter`) come from the
external `tree_sitter_highlight` crate, which only appears through its
`use` declaration; those parts are modelled from the spec (see the doc
comments below), with two behaviours pinned down by the expected output of
the crate's own `highlighting` test: the escaping of byte 39 (the
apostrophe) as the entity `&#39;`, and the trailing-newline normalization
(every emitted line, the last one included, ends with a newline byte).

Strings of the Rust program are modelled as lists of byte values
(`List Nat`), so that escaping, line splitting and UTF-8 pass-through can
be stated byte-exactly.
-/

set_option maxRecDepth 10000

/-- UTF-8 encoding of one character, by the standard UTF-8 layout.
Used to model Rust byte strings and `String::push_str` byte-exactly. -/
def charBytes (c : Char) : List Nat :=
  let n := c.toNat
  if n < 0x80 then [n]
  else if n < 0x800 then [0xC0 + n / 0x40, 0x80 + n % 0x40]
  else if n < 0x10000 then
    [0xE0 + n / 0x1000, 0x80 + (n / 0x40) % 0x40, 0x80 + n % 0x40]
  else
    [0xF0 + n / 0x40000, 0x80 + (n / 0x1000) % 0x40,
      0x80 + (n / 0x40) % 0x40, 0x80 + n % 0x40]

/-- The UTF-8 bytes of a string, as natural numbers. -/
def strBytes (s : String) : List Nat :=
  s.data.flatMap charBytes

/-- Modelled from the spec: the external tokenizer configuration
(`tree_sitter_highlight::HighlightConfiguration`, re-exported by
`src/lib.rs`).  Its grammar internals are opaque to this crate; the only part the
crate touches is `configure(names)`, which records the role-name table. -/
structure HighlightConfiguration where
  grammar : Nat
  configuredNames : List String := []
deriving DecidableEq

/-- Modelled from the spec: `HighlightConfiguration::configure` records the
role names used for this language (delegated to the external collaborator). -/
def HighlightConfiguration.configure
    (c : HighlightConfiguration) (names : List String) : HighlightConfiguration :=
  { c with configuredNames := names }

/-- Modelled from the spec: one event of the highlight-event stream
produced by the external tokenizer (a tagged start/end marker or a source
byte range, in byte-offset order). -/
inductive HighlightEvent where
  | source (s e : Nat)
  | highlightStart (idx : Nat)
  | highlightEnd
deriving DecidableEq

/-- A half-open byte slice `[s, e)` of a byte buffer (Rust `&src[s..e]`;
out-of-range indices are clamped here, where Rust would panic — no claim
depends on out-of-range source events). -/
def byteSlice (src : List Nat) (s e : Nat) : List Nat :=
  (src.drop s).take (e - s)

/-- Modelled from the spec: the byte-escaping table of the renderer.  The
spec (§4.2) lists four escapes; the crate's own `highlighting` test output
(`src/lib.rs`) additionally shows byte 39 (the apostrophe) emitted as the
entity `&#39;`, so the model includes it.  Every other byte — UTF-8
multi-byte sequences included — is passed through. -/
def html_escape (c : Nat) : Option (List Nat) :=
  if c = 62 then some (strBytes "&gt;")
  else if c = 60 then some (strBytes "&lt;")
  else if c = 38 then some (strBytes "&amp;")
  else if c = 39 then some (strBytes "&#39;")
  else if c = 34 then some (strBytes "&quot;")
  else none

/-- The opening tag emitted for one highlight region: `<span ATTR>`, the
space and attribute omitted when the attribute string is empty. -/
def spanOpen (attr : List Nat) : List Nat :=
  strBytes "<span" ++ (if attr = [] then [] else 32 :: attr) ++ strBytes ">"

/-- The closing tag emitted for one highlight region. -/
def spanClose : List Nat := strBytes "</span>"

/-- Modelled from the spec: the state of the external line-splitting
renderer — the HTML bytes produced so far plus the recorded line-start
offsets into them (offset 0 is recorded up front; one offset is recorded
right after each emitted newline byte; one final offset is recorded when
rendering finishes). -/
structure HtmlRenderer where
  html : List Nat
  lineOffsets : List Nat
deriving DecidableEq

/-- A fresh renderer: no output, the single line offset 0. -/
def HtmlRenderer.new : HtmlRenderer := ⟨[], [0]⟩

/-- Emit the opening tag for a region (attribute supplied by the class
callback). -/
def HtmlRenderer.start_highlight (r : HtmlRenderer) (attr : List Nat) : HtmlRenderer :=
  { r with html := r.html ++ spanOpen attr }

/-- Emit a closing tag. -/
def HtmlRenderer.end_highlight (r : HtmlRenderer) : HtmlRenderer :=
  { r with html := r.html ++ spanClose }

/-- Modelled from the spec (§4.2): emit one literal source byte.  A newline
closes every currently-open span, emits the newline itself, records a line
offset, and reopens the open spans in original order as the first thing on
the next line; any other byte is emitted through the escaping table. -/
def HtmlRenderer.add_byte (r : HtmlRenderer) (hs : List Nat)
    (cb : Nat → List Nat) (c : Nat) : HtmlRenderer :=
  if c = 10 then
    let r1 := hs.foldl (fun acc _ => acc.end_highlight) r
    let r2 : HtmlRenderer := { r1 with html := r1.html ++ [10] }
    let r3 : HtmlRenderer := { r2 with lineOffsets := r2.lineOffsets ++ [r2.html.length] }
    hs.foldl (fun acc i => acc.start_highlight (cb i)) r3
  else
    match html_escape c with
    | some esc => { r with html := r.html ++ esc }
    | none => { r with html := r.html ++ [c] }

/-- Modelled from the spec: emit a run of literal source bytes under the
currently-open highlight stack `hs`. -/
def HtmlRenderer.add_text (r : HtmlRenderer) (t : List Nat) (hs : List Nat)
    (cb : Nat → List Nat) : HtmlRenderer :=
  t.foldl (fun acc c => acc.add_byte hs cb c) r

/-- Modelled from the spec: the renderer's event loop.  A start event
pushes the region and emits its opening tag, an end event pops and emits a
closing tag, a source event emits the escaped bytes of its range, and an
error item from the stream aborts the whole render with a failure. -/
def HtmlRenderer.run (src : List Nat) (cb : Nat → List Nat) :
    List (Except Unit HighlightEvent) → HtmlRenderer → List Nat →
    Except Unit HtmlRenderer
  | [], r, _ => .ok r
  | .error _ :: _, _, _ => .error ()
  | .ok (.highlightStart i) :: rest, r, stack =>
      HtmlRenderer.run src cb rest (r.start_highlight (cb i)) (stack ++ [i])
  | .ok .highlightEnd :: rest, r, stack =>
      HtmlRenderer.run src cb rest r.end_highlight stack.dropLast
  | .ok (.source s e) :: rest, r, stack =>
      HtmlRenderer.run src cb rest (r.add_text (byteSlice src s e) stack cb) stack

/-- Modelled from the spec, pinned by the crate's `highlighting` test:
when the event stream is exhausted the renderer guarantees the output ends
with a newline byte (appending one if missing — visible in the test's
expected output, whose final line-span content ends in a newline although
the source has no trailing newline) and records the final line offset. -/
def HtmlRenderer.finalize (r : HtmlRenderer) : HtmlRenderer :=
  let r1 : HtmlRenderer :=
    if r.html.getLast? = some 10 then r else { r with html := r.html ++ [10] }
  { r1 with lineOffsets := r1.lineOffsets ++ [r1.html.length] }

/-- Modelled from the spec: the external renderer entry point — run the
event loop, then normalize the tail and record the final offset.  An error
item in the stream yields a failure and no output. -/
def HtmlRenderer.render (src : List Nat) (cb : Nat → List Nat)
    (events : List (Except Unit HighlightEvent)) : Except Unit HtmlRenderer :=
  (HtmlRenderer.run src cb events HtmlRenderer.new []).map HtmlRenderer.finalize

/-- Modelled from the spec: the renderer's line view — consecutive pairs
of recorded offsets delimit the lines of the HTML byte buffer. -/
def HtmlRenderer.lines (r : HtmlRenderer) : List (List Nat) :=
  (r.lineOffsets.zip r.lineOffsets.tail).map fun p => byteSlice r.html p.1 p.2

/-- `fn names_to_classes` of `src/lib.rs`: prepend `class=` to every role
name, verbatim. -/
def names_to_classes (names : List String) : List String :=
  names.map (fun n => "class=" ++ n)

/-- The registry of `src/lib.rs` (`Languages`): a map from language
identifier to the configured tokenizer configuration and the prebuilt
class table.  The `HashMap` is modelled as an association list whose
insert drops any previous entry for the key. -/
def Languages := List (String × (HighlightConfiguration × List String))

/-- `Languages::get` of `src/lib.rs`: look the language identifier up. -/
def Languages.get (m : Languages) (lang : String) :
    Option (HighlightConfiguration × List String) :=
  (m.find? fun p => p.1 == lang).map (fun p => p.2)

/-- `Languages::insert_with_names` of `src/lib.rs`: configure the
tokenizer with the role names, build the class table, and store both under
the identifier, replacing any previous entry. -/
def Languages.insert_with_names (m : Languages) (lang : String)
    (config : HighlightConfiguration) (names : List String) : Languages :=
  (lang, (config.configure names, names_to_classes names)) ::
    m.filter (fun p => !(p.1 == lang))

/-- The attribute callback `render` passes to the external renderer in
`src/lib.rs`: index the class table, falling back to the empty byte string
when the capture index is out of bounds
(`names.get(h.0).map(String::as_bytes).unwrap_or(b"")`). -/
def classAttr (classes : List String) (i : Nat) : List Nat :=
  ((classes.get? i).map strBytes).getD []

/-- The line wrapper emitted by `render` in `src/lib.rs`:
`<span class=line>` + line + `</span>`. -/
def lineSpan (l : List Nat) : List Nat :=
  strBytes "<span class=line>" ++ l ++ strBytes "</span>"

/-- The outer shell assembled by `render` in `src/lib.rs`:
`<pre class=language-LANG><code>` + the wrapped lines + `</code></pre>`,
the language identifier inserted verbatim. -/
def renderShell (lang : String) (ls : List (List Nat)) : List Nat :=
  strBytes "<pre class=language-" ++ strBytes lang ++ strBytes "><code>" ++
    (ls.map lineSpan).flatten ++ strBytes "</code></pre>"

/-- `Languages::render` of `src/lib.rs`, parametric in the external
tokenizer `hl` (modelled from the spec as a function from configuration
and source bytes to an event stream or a failure): look the language up,
tokenize, render, and wrap the lines in the shell; return `none` when the
language is unknown or either external step fails. -/
def Languages.render
    (hl : HighlightConfiguration → List Nat → Except Unit (List (Except Unit HighlightEvent)))
    (m : Languages) (lang : String) (source : List Nat) : Option (List Nat) :=
  match m.get lang with
  | none => none
  | some (config, classes) =>
    match hl config source with
    | .error _ => none
    | .ok events =>
      match HtmlRenderer.render source (classAttr classes) events with
      | .error _ => none
      | .ok r => some (renderShell lang r.lines)

/-- A sample configured entry used by concrete counterexamples and
witnesses: a one-entry role table `["string"]`. -/
def exEntry : HighlightConfiguration := { grammar := 0, configuredNames := ["string"] }

/-- A sample registry with the single language `x` and role table
`["string"]`. -/
def exM : Languages := [("x", (exEntry, names_to_classes ["string"]))]

/-- A sample tokenizer emitting one region tagged with capture index 5 —
out of bounds for the one-entry class table of `exM`. -/
def exHlOob : HighlightConfiguration → List Nat →
    Except Unit (List (Except Unit HighlightEvent)) :=
  fun _ _ => .ok [.ok (.highlightStart 5), .ok (.source 0 2), .ok .highlightEnd]

/-- A sample tokenizer emitting the first source byte with no regions. -/
def exHlPlain : HighlightConfiguration → List Nat →
    Except Unit (List (Except Unit HighlightEvent)) :=
  fun _ _ => .ok [.ok (.source 0 1)]

/-- A sample tokenizer emitting an empty event stream. -/
def exHlEmpty : HighlightConfiguration → List Nat →
    Except Unit (List (Except Unit HighlightEvent)) :=
  fun _ _ => .ok []

/-- A sample tokenizer emitting one region with capture index 0 over the
first three source bytes. -/
def exHlSpan : HighlightConfiguration → List Nat →
    Except Unit (List (Except Unit HighlightEvent)) :=
  fun _ _ => .ok [.ok (.highlightStart 0), .ok (.source 0 3), .ok .highlightEnd]

/-- The escaping table as the (amended) spec words it: the five bytes
`&` `<` `>` `"` and the apostrophe are entity-encoded, every other byte is
passed through unchanged. -/
def escapeSpec (c : Nat) : List Nat :=
  if c = 38 then strBytes "&amp;"
  else if c = 60 then strBytes "&lt;"
  else if c = 62 then strBytes "&gt;"
  else if c = 34 then strBytes "&quot;"
  else if c = 39 then strBytes "&#39;"
  else [c]

/-- The concatenation of `n` closing tags. -/
def closeRep (n : Nat) : List Nat := (List.replicate n spanClose).flatten

/-- The concatenation of the opening tags of a list of attributes. -/
def openSeq (attrs : List (List Nat)) : List Nat := (attrs.map spanOpen).flatten

/-- The line-start offsets corresponding to a list of completed lines:
0, then the running total of the line lengths. -/
def offsetsOf : List (List Nat) → List Nat
  | [] => [0]
  | l :: rest => 0 :: (offsetsOf rest).map (fun x => l.length + x)

/-- A byte string free of the tag delimiters `<` and `>`. -/
def TagFree (l : List Nat) : Prop := ∀ b ∈ l, b ≠ 60 ∧ b ≠ 62

instance (l : List Nat) : Decidable (TagFree l) :=
  inferInstanceAs (Decidable (∀ b ∈ l, b ≠ 60 ∧ b ≠ 62))

/-- The grammar of well-formed span fragments: a sequence of tag-free text
runs and `<span ATTR>` ... `</span>` elements whose tags are properly
matched and strictly nested, attributes themselves tag-free.  Membership
formalizes HTML well-formedness of a line. -/
inductive SpanForest : List Nat → Prop where
  | empty : SpanForest []
  | text (t rest : List Nat) : TagFree t → SpanForest rest → SpanForest (t ++ rest)
  | node (a inner rest : List Nat) : TagFree a → SpanForest inner → SpanForest rest →
      SpanForest (spanOpen a ++ inner ++ spanClose ++ rest)

/-- A line still being produced: a well-formed prefix followed, for each
currently-open region in push order, by its (unclosed) opening tag and a
well-formed fragment. -/
inductive OpenLine : List (List Nat) → List Nat → Prop where
  | base (f : List Nat) : SpanForest f → OpenLine [] f
  | push (attrs : List (List Nat)) (a line f : List Nat) :
      OpenLine attrs line → TagFree a → SpanForest f →
      OpenLine (attrs ++ [a]) (line ++ spanOpen a ++ f)

/-- Validity of a highlight-event stream against an ambient nesting depth:
no error items, every end event matches an open start, and every region
opened is closed by the end of the stream.  This is the §3 containment
invariant the external tokenizer guarantees. -/
def eventsOk : List (Except Unit HighlightEvent) → Nat → Bool
  | [], d => d == 0
  | .error _ :: _, _ => false
  | .ok (.highlightStart _) :: rest, d => eventsOk rest (d + 1)
  | .ok .highlightEnd :: rest, d => d != 0 && eventsOk rest (d - 1)
  | .ok (.source _ _) :: rest, d => eventsOk rest d

/-- The concatenation of the byte ranges referenced by the stream's source
events; a stream covers a source buffer when this equals the buffer. -/
def sourceSlices (src : List Nat) : List (Except Unit HighlightEvent) → List Nat
  | [] => []
  | .ok (.source s e) :: rest => byteSlice src s e ++ sourceSlices src rest
  | _ :: rest => sourceSlices src rest

theorem add_text_cons (r : HtmlRenderer) (c : Nat) (t : List Nat) (hs : List Nat)
    (cb : Nat → List Nat) :
    r.add_text (c :: t) hs cb = (r.add_byte hs cb c).add_text t hs cb := rfl

/-- C2 (amended), as it falls out of the renderer: with no open regions,
the emitted bytes of a literal text run are exactly the concatenation of
`escapeSpec` over the source bytes — five bytes entity-encoded, everything
else (newline and UTF-8 continuation bytes included) passed through. -/
theorem add_text_escapes (t : List Nat) :
    ∀ (r : HtmlRenderer) (cb : Nat → List Nat),
      (r.add_text t [] cb).html = r.html ++ t.flatMap escapeSpec := by
  induction t with
  | nil => intro r cb; simp [HtmlRenderer.add_text]
  | cons c t ih =>
    intro r cb
    rw [add_text_cons, ih]
    have hb : (r.add_byte [] cb c).html = r.html ++ escapeSpec c := by
      by_cases h10 : c = 10
      · subst h10
        simp [HtmlRenderer.add_byte, escapeSpec]
      · simp only [HtmlRenderer.add_byte, if_neg h10]
        unfold html_escape escapeSpec
        split_ifs <;> simp_all
    rw [hb, List.flatMap_cons, List.append_assoc]

/-- C3: the class-table builder returns a list of the same length whose
element i is the literal text `class=` concatenated with role name i,
verbatim — no escaping, no normalization, no deduplication. -/
theorem names_to_classes_spec (names : List String) :
    (names_to_classes names).length = names.length ∧
    ∀ i : Nat, (names_to_classes names).get? i
      = (names.get? i).map (fun n => "class=" ++ n) := by
  constructor
  · simp [names_to_classes]
  · intro i
    simp [names_to_classes]

/-- C8: the output of `render` is a function of the looked-up language
entry and the source bytes only — two registries agreeing on the entry for
`lang` render every source identically, so rendering the same pair twice
yields identical output. -/
theorem render_deterministic
    (hl : HighlightConfiguration → List Nat → Except Unit (List (Except Unit HighlightEvent)))
    (m1 m2 : Languages) (lang : String) (src : List Nat)
    (h : m1.get lang = m2.get lang) :
    Languages.render hl m1 lang src = Languages.render hl m2 lang src := by
  unfold Languages.render
  rw [h]

/-- C8 witness at concrete input. -/
theorem render_deterministic_witness :
    Languages.render exHlPlain exM "x" [97] = Languages.render exHlPlain exM "x" [97] :=
  render_deterministic exHlPlain exM exM "x" [97] rfl

theorem find_filter_of_ne (m : List (String × (HighlightConfiguration × List String)))
    (lang other : String) (h : other ≠ lang) :
    (m.filter fun p => !(p.1 == lang)).find? (fun p => p.1 == other)
      = m.find? (fun p => p.1 == other) := by
  have hlo : (lang == other) = false := beq_eq_false_iff_ne.mpr (Ne.symm h)
  induction m with
  | nil => simp
  | cons p m ih =>
    by_cases hpl : p.1 = lang
    · simp [List.filter_cons, hpl, List.find?_cons, hlo, ih]
    · have hplb : (p.1 == lang) = false := beq_eq_false_iff_ne.mpr hpl
      by_cases hpo : p.1 = other
      · simp [List.filter_cons, hplb, List.find?_cons, hpo, h]
      · have hpob : (p.1 == other) = false := beq_eq_false_iff_ne.mpr hpo
        simp [List.filter_cons, hplb, List.find?_cons, hpob, ih]

/-- C9: after `insert_with_names`, looking the language up returns the
configuration configured with the given role names together with the class
table built from them (the latest insert wins), and every other language
identifier resolves exactly as before. -/
theorem insert_with_names_spec (m : Languages) (lang other : String)
    (cfg : HighlightConfiguration) (names : List String) (h : other ≠ lang) :
    (m.insert_with_names lang cfg names).get lang
        = some (cfg.configure names, names_to_classes names) ∧
    (m.insert_with_names lang cfg names).get other = m.get other := by
  constructor
  · simp [Languages.insert_with_names, Languages.get, List.find?_cons]
  · simp only [Languages.insert_with_names, Languages.get, List.find?_cons]
    have hno : (lang == other) = false := by
      simp
      exact fun hc => h hc.symm
    rw [hno]
    simp only [find_filter_of_ne m lang other h]

/-- C9 witness at concrete input. -/
theorem insert_with_names_spec_witness :
    ("y" ≠ "x") ∧
    (((exM.insert_with_names "x" exEntry ["keyword"]).get "x"
        = some (exEntry.configure ["keyword"], names_to_classes ["keyword"])) ∧
      (exM.insert_with_names "x" exEntry ["keyword"]).get "y" = exM.get "y") :=
  ⟨by decide, insert_with_names_spec exM "x" "y" exEntry ["keyword"] (by decide)⟩

/-- C4: `render` returns `none` exactly when the language identifier was
never inserted, or the tokenization step fails, or the rendering step
fails — the three causes all collapse to the same absence signal, and in
every failure case nothing (in particular no partial fragment) is
returned. -/
theorem render_none_iff
    (hl : HighlightConfiguration → List Nat → Except Unit (List (Except Unit HighlightEvent)))
    (m : Languages) (lang : String) (src : List Nat) :
    Languages.render hl m lang src = none ↔
      m.get lang = none ∨
      ∃ cfg classes, m.get lang = some (cfg, classes) ∧
        (hl cfg src = .error () ∨
          ∃ events, hl cfg src = .ok events ∧
            HtmlRenderer.render src (classAttr classes) events = .error ()) := by
  unfold Languages.render
  rcases hg : m.get lang with _ | ⟨cfg, classes⟩
  · simp
  · simp only [hg, Option.some.injEq, false_or]
    rcases hh : hl cfg src with e | events
    · cases e
      simp only [hh]
      exact iff_of_true (by trivial) (Or.inr ⟨cfg, classes, rfl, Or.inl hh⟩)
    · simp only [hh]
      rcases hr : HtmlRenderer.render src (classAttr classes) events with e | r
      · cases e
        simp only [hr]
        exact iff_of_true (by trivial) (Or.inr ⟨cfg, classes, rfl, Or.inr ⟨events, hh, hr⟩⟩)
      · simp [hh, hr]

theorem run_error_of_mem (src : List Nat) (cb : Nat → List Nat) :
    ∀ (events : List (Except Unit HighlightEvent)) (r : HtmlRenderer) (stack : List Nat),
      Except.error () ∈ events → HtmlRenderer.run src cb events r stack = .error () := by
  intro events
  induction events with
  | nil => intro r stack h; simp at h
  | cons e rest ih =>
    intro r stack h
    match e with
    | .error u => cases u; rfl
    | .ok ev =>
      have hm : Except.error () ∈ rest := by
        rcases List.mem_cons.mp h with h1 | h2
        · exact absurd h1.symm (by simp)
        · exact h2
      cases ev <;> exact ih _ _ hm

/-- C1 (amended): a failure reported by the tokenization step — an error
item anywhere in the highlight-event stream — makes `render` return no
result.  (An out-of-bounds capture index, by contrast, is not a failure;
see the counterexample.) -/
theorem render_error_stream_none
    (hl : HighlightConfiguration → List Nat → Except Unit (List (Except Unit HighlightEvent)))
    (m : Languages) (lang : String) (src : List Nat)
    (cfg : HighlightConfiguration) (classes : List String)
    (events : List (Except Unit HighlightEvent))
    (hg : m.get lang = some (cfg, classes))
    (hhl : hl cfg src = .ok events)
    (herr : Except.error () ∈ events) :
    Languages.render hl m lang src = none := by
  unfold Languages.render
  simp only [hg, hhl]
  simp [HtmlRenderer.render,
    run_error_of_mem src (classAttr classes) events HtmlRenderer.new [] herr,
    Except.map]

/-- C1 witness: a concrete stream whose second item is an error event. -/
theorem render_error_stream_none_witness :
    Languages.render (fun _ _ => .ok [.ok (.source 0 1), .error ()]) exM "x" [97] = none :=
  render_error_stream_none (fun _ _ => .ok [.ok (.source 0 1), .error ()]) exM "x" [97]
    exEntry (names_to_classes ["string"]) [.ok (.source 0 1), .error ()]
    (by rfl) rfl (by simp)

/-- C1 counterexample: a capture index (5) outside the bounds of the
one-entry class table does not make `render` fail — the callback falls
back to the empty attribute string and the renderer emits a bare `<span>`
around the text, returning a complete fragment rather than no result. -/
theorem render_oob_index_succeeds :
    Languages.render exHlOob exM "x" [97, 98] =
      some (strBytes
        "<pre class=language-x><code><span class=line><span>ab</span>\n</span></code></pre>") ∧
    Languages.render exHlOob exM "x" [97, 98] ≠ none := by
  constructor
  · decide
  · decide

/-- C2 counterexample: byte 39 (the apostrophe) is not among the four
characters the claim lists, yet the renderer entity-encodes it as `&#39;`
(exactly as the crate's own `highlighting` test expects) instead of
passing it through. -/
theorem render_escapes_apostrophe :
    Languages.render exHlPlain exM "x" [39] =
      some (strBytes "<pre class=language-x><code><span class=line>&#39;\n</span></code></pre>") ∧
    Languages.render exHlPlain exM "x" [39] ≠
      some (strBytes "<pre class=language-x><code><span class=line>" ++ [39] ++
        strBytes "\n</span></code></pre>") := by
  constructor
  · decide
  · decide

/-- C7 counterexample: on the empty source buffer the single emitted
line-span is not empty — the renderer appends a newline, so the line-span
contains exactly one newline byte. -/
theorem render_empty_source_line :
    Languages.render exHlEmpty exM "x" [] =
      some (strBytes "<pre class=language-x><code><span class=line>\n</span></code></pre>") ∧
    Languages.render exHlEmpty exM "x" [] ≠
      some (strBytes "<pre class=language-x><code><span class=line></span></code></pre>") := by
  constructor
  · decide
  · decide

theorem closeRep_succ (n : Nat) : closeRep (n + 1) = spanClose ++ closeRep n := by
  simp [closeRep, List.replicate_succ]

theorem openSeq_concat (attrs : List (List Nat)) (a : List Nat) :
    openSeq (attrs ++ [a]) = openSeq attrs ++ spanOpen a := by
  simp [openSeq]

theorem foldl_end_eq (hs : List Nat) : ∀ r : HtmlRenderer,
    hs.foldl (fun acc _ => acc.end_highlight) r
      = ⟨r.html ++ closeRep hs.length, r.lineOffsets⟩ := by
  induction hs with
  | nil => intro r; simp [closeRep]
  | cons a hs ih =>
    intro r
    rw [List.foldl_cons, ih]
    simp [HtmlRenderer.end_highlight, closeRep_succ, List.append_assoc]

theorem foldl_start_eq (hs : List Nat) (cb : Nat → List Nat) : ∀ r : HtmlRenderer,
    hs.foldl (fun acc i => acc.start_highlight (cb i)) r
      = ⟨r.html ++ openSeq (hs.map cb), r.lineOffsets⟩ := by
  induction hs with
  | nil => intro r; simp [openSeq]
  | cons a hs ih =>
    intro r
    rw [List.foldl_cons, ih]
    simp [HtmlRenderer.start_highlight, openSeq, List.append_assoc]

theorem add_byte_newline (r : HtmlRenderer) (hs : List Nat) (cb : Nat → List Nat) :
    r.add_byte hs cb 10 =
      ⟨r.html ++ closeRep hs.length ++ [10] ++ openSeq (hs.map cb),
        r.lineOffsets ++ [r.html.length + (closeRep hs.length).length + 1]⟩ := by
  simp [HtmlRenderer.add_byte, foldl_end_eq, foldl_start_eq, List.append_assoc]
  omega

theorem add_byte_not_newline (r : HtmlRenderer) (hs : List Nat) (cb : Nat → List Nat)
    (c : Nat) (h : c ≠ 10) :
    r.add_byte hs cb c = ⟨r.html ++ escapeSpec c, r.lineOffsets⟩ := by
  simp only [HtmlRenderer.add_byte, if_neg h]
  unfold html_escape escapeSpec
  split_ifs <;> simp_all

theorem escapeSpec_tagFree (c : Nat) : TagFree (escapeSpec c) := by
  unfold escapeSpec
  split_ifs with h1 h2 h3 h4 h5
  · decide
  · decide
  · decide
  · decide
  · decide
  · intro b hb
    rcases List.mem_singleton.mp hb with rfl
    exact ⟨h2, h3⟩

theorem tagFree_newline : TagFree [10] := by decide

theorem tagFree_nil : TagFree [] := by decide

theorem SpanForest.append {x y : List Nat} (hx : SpanForest x) (hy : SpanForest y) :
    SpanForest (x ++ y) := by
  induction hx with
  | empty => simpa
  | text t rest ht _ ih =>
    rw [List.append_assoc]
    exact SpanForest.text t _ ht ih
  | node a inner rest ha hi _ ihi ihr =>
    simpa [List.append_assoc] using SpanForest.node a inner (rest ++ y) ha hi ihr

theorem SpanForest.ofText {t : List Nat} (h : TagFree t) : SpanForest t := by
  have := SpanForest.text t [] h SpanForest.empty
  simpa using this

theorem SpanForest.single {a inner : List Nat} (ha : TagFree a) (hi : SpanForest inner) :
    SpanForest (spanOpen a ++ inner ++ spanClose) := by
  have := SpanForest.node a inner [] ha hi SpanForest.empty
  simpa using this

theorem OpenLine.append_forest {attrs : List (List Nat)} {line g : List Nat}
    (h : OpenLine attrs line) (hg : SpanForest g) : OpenLine attrs (line ++ g) := by
  induction h with
  | base f hf => exact OpenLine.base (f ++ g) (hf.append hg)
  | push attrs a line f h0 ha hf ih =>
    simpa [List.append_assoc] using OpenLine.push attrs a line (f ++ g) h0 ha (hf.append hg)

theorem OpenLine.sf_of_nil {cur : List Nat} (h : OpenLine [] cur) : SpanForest cur := by
  generalize hA : ([] : List (List Nat)) = A at h
  cases h with
  | base f hf => exact hf
  | push attrs a line f h0 ha hf => exact absurd hA.symm (by simp)

theorem OpenLine.pop {attrs : List (List Nat)} {a cur : List Nat}
    (h : OpenLine (attrs ++ [a]) cur) : OpenLine attrs (cur ++ spanClose) := by
  generalize hA : attrs ++ [a] = A at h
  cases h with
  | base f hf => exact absurd hA (by simp)
  | push attrs0 a0 line f h0 ha0 hf =>
    have heq : attrs = attrs0 ∧ a = a0 := by
      have h1 := congrArg List.reverse hA
      simp at h1
      exact ⟨by
        have := congrArg List.reverse h1.2
        simpa using this, h1.1⟩
    rcases heq with ⟨rfl, rfl⟩
    have hitem : SpanForest (spanOpen a ++ f ++ spanClose) :=
      SpanForest.single ha0 hf
    simpa [List.append_assoc] using h0.append_forest hitem

theorem OpenLine.close_all {attrs : List (List Nat)} {line : List Nat}
    (h : OpenLine attrs line) :
    ∀ g : List Nat, SpanForest g → SpanForest (line ++ g ++ closeRep attrs.length) := by
  induction h with
  | base f hf =>
    intro g hg
    simpa [closeRep] using hf.append hg
  | push attrs a line f h0 ha hf ih =>
    intro g hg
    have hitem : SpanForest (spanOpen a ++ (f ++ g) ++ spanClose) :=
      SpanForest.single ha (hf.append hg)
    have h2 := ih (spanOpen a ++ (f ++ g) ++ spanClose) hitem
    simpa [closeRep_succ, List.append_assoc] using h2

theorem OpenLine.opens (attrs : List (List Nat)) (h : ∀ a ∈ attrs, TagFree a) :
    OpenLine attrs (openSeq attrs) := by
  induction attrs using List.reverseRecOn with
  | nil => exact OpenLine.base [] SpanForest.empty
  | append_singleton as a ih =>
    have h1 : ∀ b ∈ as, TagFree b := fun b hb => h b (by simp [hb])
    have h2 : TagFree a := h a (by simp)
    have := OpenLine.push as a (openSeq as) [] (ih h1) h2 SpanForest.empty
    simpa [openSeq_concat] using this

theorem offsetsOf_concat (done : List (List Nat)) (l : List Nat) :
    offsetsOf (done ++ [l]) = offsetsOf done ++ [done.flatten.length + l.length] := by
  induction done with
  | nil => simp [offsetsOf]
  | cons d done ih =>
    simp [offsetsOf, ih, List.append_assoc]
    omega

theorem offsetsOf_head (done : List (List Nat)) :
    ∃ t, offsetsOf done = 0 :: t := by
  cases done with
  | nil => exact ⟨[], rfl⟩
  | cons d done => exact ⟨_, rfl⟩

theorem byteSlice_shift (l x : List Nat) (a b : Nat) :
    byteSlice (l ++ x) (l.length + a) (l.length + b) = byteSlice x a b := by
  unfold byteSlice
  rw [List.drop_append a]
  congr 1
  omega

theorem lines_cons (d rest : List Nat) (t : List Nat) :
    HtmlRenderer.lines ⟨d ++ rest, 0 :: (0 :: t).map (fun x => d.length + x)⟩
      = d :: HtmlRenderer.lines ⟨rest, 0 :: t⟩ := by
  unfold HtmlRenderer.lines
  simp only [List.map_cons, List.tail_cons, List.zip_cons_cons]
  have hz : ((d.length + 0) :: List.map (fun x => d.length + x) t).zip
        (List.map (fun x => d.length + x) t)
      = ((0 :: t).zip t).map
          (Prod.map (fun x => d.length + x) (fun x => d.length + x)) :=
    List.zip_map (fun x => d.length + x) (fun x => d.length + x) (0 :: t) t
  rw [hz, List.map_map]
  congr 1
  · simp [byteSlice, List.take_left]
  · apply List.map_congr_left
    intro q _
    simp only [Function.comp_apply, Prod.map_apply]
    exact byteSlice_shift d rest q.1 q.2

theorem lines_decomp (done : List (List Nat)) (last : List Nat) :
    HtmlRenderer.lines
        ⟨done.flatten ++ last, offsetsOf done ++ [(done.flatten ++ last).length]⟩
      = done ++ [last] := by
  induction done with
  | nil =>
    simp [offsetsOf, HtmlRenderer.lines, byteSlice]
  | cons d done ih =>
    obtain ⟨t, ht⟩ := offsetsOf_head done
    rw [show (d :: done).flatten ++ last = d ++ (done.flatten ++ last) by simp]
    have key : offsetsOf (d :: done) ++ [(d ++ (done.flatten ++ last)).length]
        = 0 :: (0 :: (t ++ [(done.flatten ++ last).length])).map
            (fun x => d.length + x) := by
      simp [offsetsOf, ht, List.map_append]
    rw [key, lines_cons]
    have ho : (0 : Nat) :: (t ++ [(done.flatten ++ last).length])
        = offsetsOf done ++ [(done.flatten ++ last).length] := by
      rw [ht]
      rfl
    rw [ho, ih]
    rfl

theorem add_text_struct (cb : Nat → List Nat) (hs : List Nat) (t : List Nat) :
    ∀ (r : HtmlRenderer) (done : List (List Nat)) (cur : List Nat),
      r.html = done.flatten ++ cur → r.lineOffsets = offsetsOf done →
      (∀ l ∈ done, l.getLast? = some 10) →
      ∃ done2 cur2, (r.add_text t hs cb).html = done2.flatten ++ cur2 ∧
        (r.add_text t hs cb).lineOffsets = offsetsOf done2 ∧
        (∀ l ∈ done2, l.getLast? = some 10) := by
  induction t with
  | nil =>
    intro r done cur h1 h2 h3
    exact ⟨done, cur, by simpa [HtmlRenderer.add_text] using h1,
      by simpa [HtmlRenderer.add_text] using h2, h3⟩
  | cons c t ih =>
    intro r done cur h1 h2 h3
    rw [add_text_cons]
    by_cases hc : c = 10
    · subst hc
      refine ih (r.add_byte hs cb 10) (done ++ [cur ++ closeRep hs.length ++ [10]])
        (openSeq (hs.map cb)) ?_ ?_ ?_
      · rw [add_byte_newline]
        dsimp only
        rw [h1]
        simp [List.append_assoc]
      · rw [add_byte_newline]
        dsimp only
        rw [h2, offsetsOf_concat, h1]
        simp
        omega
      · intro l hl
        rcases List.mem_append.mp hl with hd | hn
        · exact h3 l hd
        · rcases List.mem_singleton.mp hn with rfl
          exact List.getLast?_concat _
    · refine ih (r.add_byte hs cb c) done (cur ++ escapeSpec c) ?_ ?_ h3
      · rw [add_byte_not_newline r hs cb c hc]
        dsimp only
        rw [h1, List.append_assoc]
      · rw [add_byte_not_newline r hs cb c hc]
        exact h2

theorem run_struct (src : List Nat) (cb : Nat → List Nat) :
    ∀ (events : List (Except Unit HighlightEvent)) (r : HtmlRenderer) (stack : List Nat)
      (done : List (List Nat)) (cur : List Nat) (r' : HtmlRenderer),
      HtmlRenderer.run src cb events r stack = .ok r' →
      r.html = done.flatten ++ cur → r.lineOffsets = offsetsOf done →
      (∀ l ∈ done, l.getLast? = some 10) →
      ∃ done' cur', r'.html = done'.flatten ++ cur' ∧ r'.lineOffsets = offsetsOf done' ∧
        (∀ l ∈ done', l.getLast? = some 10) := by
  intro events
  induction events with
  | nil =>
    intro r stack done cur r' hrun h1 h2 h3
    simp only [HtmlRenderer.run] at hrun
    cases hrun
    exact ⟨done, cur, h1, h2, h3⟩
  | cons e rest ih =>
    intro r stack done cur r' hrun h1 h2 h3
    match e with
    | .error u =>
      simp only [HtmlRenderer.run] at hrun
      exact absurd hrun (by simp)
    | .ok (.highlightStart i) =>
      simp only [HtmlRenderer.run] at hrun
      refine ih (r.start_highlight (cb i)) (stack ++ [i]) done (cur ++ spanOpen (cb i))
        r' hrun ?_ ?_ h3
      · simp [HtmlRenderer.start_highlight, h1, List.append_assoc]
      · simp [HtmlRenderer.start_highlight, h2]
    | .ok .highlightEnd =>
      simp only [HtmlRenderer.run] at hrun
      refine ih r.end_highlight stack.dropLast done (cur ++ spanClose) r' hrun ?_ ?_ h3
      · simp [HtmlRenderer.end_highlight, h1, List.append_assoc]
      · simp [HtmlRenderer.end_highlight, h2]
    | .ok (.source s e) =>
      simp only [HtmlRenderer.run] at hrun
      obtain ⟨done2, cur2, g1, g2, g3⟩ :=
        add_text_struct cb stack (byteSlice src s e) r done cur h1 h2 h3
      exact ih _ stack done2 cur2 r' hrun g1 g2 g3

theorem finalize_eq_of_newline (r : HtmlRenderer) (h : r.html.getLast? = some 10) :
    r.finalize = ⟨r.html, r.lineOffsets ++ [r.html.length]⟩ := by
  unfold HtmlRenderer.finalize
  rw [if_pos h]

theorem finalize_eq_of_not_newline (r : HtmlRenderer) (h : ¬r.html.getLast? = some 10) :
    r.finalize = ⟨r.html ++ [10], r.lineOffsets ++ [r.html.length + 1]⟩ := by
  unfold HtmlRenderer.finalize
  rw [if_neg h]
  simp

theorem finalize_lines (r2 : HtmlRenderer) (done : List (List Nat)) (cur : List Nat)
    (g1 : r2.html = done.flatten ++ cur) (g2 : r2.lineOffsets = offsetsOf done) :
    ∃ last, (HtmlRenderer.finalize r2).lines = done ++ [last] ∧
      (last = cur ∨ last = cur ++ [10]) := by
  by_cases h10 : r2.html.getLast? = some 10
  · refine ⟨cur, ?_, Or.inl rfl⟩
    rw [finalize_eq_of_newline r2 h10, g1, g2]
    exact lines_decomp done cur
  · refine ⟨cur ++ [10], ?_, Or.inr rfl⟩
    rw [finalize_eq_of_not_newline r2 h10, g1, g2]
    have ha : done.flatten ++ cur ++ [10] = done.flatten ++ (cur ++ [10]) := by
      simp [List.append_assoc]
    have hlen : (done.flatten ++ cur).length + 1 = (done.flatten ++ (cur ++ [10])).length := by
      simp
      omega
    rw [ha, hlen]
    exact lines_decomp done (cur ++ [10])

theorem render_some_elim
    (hl : HighlightConfiguration → List Nat → Except Unit (List (Except Unit HighlightEvent)))
    (m : Languages) (lang : String) (src : List Nat) (out : List Nat)
    (hout : Languages.render hl m lang src = some out) :
    ∃ cfg classes events r2,
      m.get lang = some (cfg, classes) ∧ hl cfg src = .ok events ∧
      HtmlRenderer.run src (classAttr classes) events HtmlRenderer.new [] = .ok r2 ∧
      out = renderShell lang (HtmlRenderer.finalize r2).lines := by
  unfold Languages.render at hout
  rcases hg : m.get lang with _ | ⟨cfg, classes⟩ <;> simp only [hg] at hout
  · exact absurd hout (by simp)
  · rcases hh : hl cfg src with e | events <;> simp only [hh] at hout
    · cases e
      exact absurd hout (by simp)
    · rcases hr : HtmlRenderer.run src (classAttr classes) events HtmlRenderer.new []
        with e | r2
      all_goals simp only [HtmlRenderer.render, hr, Except.map] at hout
      · cases e
        exact absurd hout (by simp)
      · exact ⟨cfg, classes, events, r2, rfl, hh, hr, (Option.some.inj hout).symm⟩

/-- C10: whenever `render` returns a fragment, the line-spans are directly
concatenated inside the shell with no separator text, and every non-final
line-span's content ends with the newline byte itself (the newline sits
inside the line-span). -/
theorem render_line_spans_direct
    (hl : HighlightConfiguration → List Nat → Except Unit (List (Except Unit HighlightEvent)))
    (m : Languages) (lang : String) (src : List Nat) (out : List Nat)
    (hout : Languages.render hl m lang src = some out) :
    ∃ ls, out = renderShell lang ls ∧ ∀ l ∈ ls.dropLast, l.getLast? = some 10 := by
  obtain ⟨cfg, classes, events, r2, hg, hh, hr, hshape⟩ :=
    render_some_elim hl m lang src out hout
  obtain ⟨done, cur, g1, g2, g3⟩ :=
    run_struct src (classAttr classes) events HtmlRenderer.new [] [] [] r2 hr
      (by simp [HtmlRenderer.new]) (by simp [HtmlRenderer.new, offsetsOf]) (by simp)
  obtain ⟨last, hls, _⟩ := finalize_lines r2 done cur g1 g2
  refine ⟨(HtmlRenderer.finalize r2).lines, hshape, ?_⟩
  rw [hls, List.dropLast_concat]
  exact g3

/-- C10 witness at a concrete two-line render. -/
theorem render_line_spans_direct_witness :
    ∃ ls, strBytes "<pre class=language-x><code><span class=line><span class=string>a</span>\n</span><span class=line><span class=string>b</span>\n</span></code></pre>"
        = renderShell "x" ls ∧ ∀ l ∈ ls.dropLast, l.getLast? = some 10 :=
  render_line_spans_direct exHlSpan exM "x" [97, 10, 98] _ (by decide)

/-- C6: whenever `render` returns a result, the returned bytes have the
exact shape `<pre class=language-LANG><code>` (the language identifier
inserted verbatim, unescaped) followed by one or more
`<span class=line>...</span>` segments followed by `</code></pre>`. -/
theorem render_output_shape
    (hl : HighlightConfiguration → List Nat → Except Unit (List (Except Unit HighlightEvent)))
    (m : Languages) (lang : String) (src : List Nat) (out : List Nat)
    (hout : Languages.render hl m lang src = some out) :
    ∃ ls, ls ≠ [] ∧ out = renderShell lang ls := by
  obtain ⟨cfg, classes, events, r2, hg, hh, hr, hshape⟩ :=
    render_some_elim hl m lang src out hout
  obtain ⟨done, cur, g1, g2, g3⟩ :=
    run_struct src (classAttr classes) events HtmlRenderer.new [] [] [] r2 hr
      (by simp [HtmlRenderer.new]) (by simp [HtmlRenderer.new, offsetsOf]) (by simp)
  obtain ⟨last, hls, _⟩ := finalize_lines r2 done cur g1 g2
  refine ⟨(HtmlRenderer.finalize r2).lines, ?_, hshape⟩
  rw [hls]
  simp

/-- C6 witness at a concrete render. -/
theorem render_output_shape_witness :
    ∃ ls, ls ≠ [] ∧
      strBytes "<pre class=language-x><code><span class=line>\n</span></code></pre>"
        = renderShell "x" ls :=
  render_output_shape exHlEmpty exM "x" [] _ (by decide)

theorem add_text_offsets_len (cb : Nat → List Nat) (hs : List Nat) (t : List Nat) :
    ∀ r : HtmlRenderer,
      ((r.add_text t hs cb).lineOffsets).length = r.lineOffsets.length + t.count 10 := by
  induction t with
  | nil => intro r; simp [HtmlRenderer.add_text]
  | cons c t ih =>
    intro r
    rw [add_text_cons, ih]
    by_cases hc : c = 10
    · subst hc
      rw [add_byte_newline]
      simp [List.count_cons]
      omega
    · rw [add_byte_not_newline r hs cb c hc]
      simp [List.count_cons, hc]

theorem run_offsets_len (src : List Nat) (cb : Nat → List Nat) :
    ∀ (events : List (Except Unit HighlightEvent)) (r : HtmlRenderer) (stack : List Nat)
      (r' : HtmlRenderer),
      HtmlRenderer.run src cb events r stack = .ok r' →
      r'.lineOffsets.length = r.lineOffsets.length + (sourceSlices src events).count 10 := by
  intro events
  induction events with
  | nil =>
    intro r stack r' hrun
    simp only [HtmlRenderer.run] at hrun
    cases hrun
    simp [sourceSlices]
  | cons e rest ih =>
    intro r stack r' hrun
    match e with
    | .error u =>
      simp only [HtmlRenderer.run] at hrun
      exact absurd hrun (by simp)
    | .ok (.highlightStart i) =>
      simp only [HtmlRenderer.run] at hrun
      rw [ih _ _ _ hrun]
      simp [HtmlRenderer.start_highlight, sourceSlices]
    | .ok .highlightEnd =>
      simp only [HtmlRenderer.run] at hrun
      rw [ih _ _ _ hrun]
      simp [HtmlRenderer.end_highlight, sourceSlices]
    | .ok (.source s e) =>
      simp only [HtmlRenderer.run] at hrun
      rw [ih _ _ _ hrun, add_text_offsets_len]
      simp [sourceSlices, List.count_append]
      omega

theorem lines_length (r : HtmlRenderer) : r.lines.length = r.lineOffsets.length - 1 := by
  simp [HtmlRenderer.lines, List.length_zip, List.length_tail]

/-- C7 (amended): for a source with k newline bytes whose event stream
covers the buffer, a successful render contains exactly k+1 line-span
segments. -/
theorem render_line_count
    (hl : HighlightConfiguration → List Nat → Except Unit (List (Except Unit HighlightEvent)))
    (m : Languages) (lang : String) (src : List Nat)
    (cfg : HighlightConfiguration) (classes : List String)
    (events : List (Except Unit HighlightEvent)) (out : List Nat)
    (hg : m.get lang = some (cfg, classes))
    (hhl : hl cfg src = .ok events)
    (hcover : sourceSlices src events = src)
    (hout : Languages.render hl m lang src = some out) :
    ∃ ls, out = renderShell lang ls ∧ ls.length = src.count 10 + 1 := by
  unfold Languages.render at hout
  simp only [hg, hhl, HtmlRenderer.render] at hout
  rcases hr : HtmlRenderer.run src (classAttr classes) events HtmlRenderer.new []
      with e | r2 <;>
    simp only [hr, Except.map] at hout
  · cases e
    exact absurd hout (by simp)
  · have hshape : out = renderShell lang (HtmlRenderer.finalize r2).lines :=
      (Option.some.inj hout).symm
    refine ⟨(HtmlRenderer.finalize r2).lines, hshape, ?_⟩
    have hrl := run_offsets_len src (classAttr classes) events HtmlRenderer.new [] r2 hr
    rw [hcover] at hrl
    have hfin : (HtmlRenderer.finalize r2).lineOffsets.length
        = r2.lineOffsets.length + 1 := by
      by_cases h10 : r2.html.getLast? = some 10
      · rw [finalize_eq_of_newline r2 h10]
        simp
      · rw [finalize_eq_of_not_newline r2 h10]
        simp
    rw [lines_length, hfin, hrl]
    simp [HtmlRenderer.new]
    omega

/-- C7 witness: a two-line concrete render (source has one newline byte,
output has two line-spans). -/
theorem render_line_count_witness :
    ∃ ls, strBytes "<pre class=language-x><code><span class=line><span class=string>a</span>\n</span><span class=line><span class=string>b</span>\n</span></code></pre>"
        = renderShell "x" ls ∧ ls.length = ([97, 10, 98] : List Nat).count 10 + 1 :=
  render_line_count exHlSpan exM "x" [97, 10, 98] exEntry (names_to_classes ["string"])
    [.ok (.highlightStart 0), .ok (.source 0 3), .ok .highlightEnd] _
    (by decide) rfl (by decide) (by decide)

theorem classAttr_tagFree (classes : List String)
    (htf : ∀ cl ∈ classes, TagFree (strBytes cl)) (i : Nat) :
    TagFree (classAttr classes i) := by
  unfold classAttr
  rcases hq : classes.get? i with _ | cl
  · simpa using tagFree_nil
  · simpa using htf cl (List.get?_mem hq)

theorem add_text_forest (cb : Nat → List Nat) (hcb : ∀ i, TagFree (cb i)) (hs : List Nat)
    (t : List Nat) :
    ∀ (r : HtmlRenderer) (done : List (List Nat)) (cur : List Nat),
      r.html = done.flatten ++ cur → r.lineOffsets = offsetsOf done →
      (∀ l ∈ done, SpanForest l ∧ l.getLast? = some 10) →
      OpenLine (hs.map cb) cur →
      ∃ done2 cur2, (r.add_text t hs cb).html = done2.flatten ++ cur2 ∧
        (r.add_text t hs cb).lineOffsets = offsetsOf done2 ∧
        (∀ l ∈ done2, SpanForest l ∧ l.getLast? = some 10) ∧
        OpenLine (hs.map cb) cur2 := by
  induction t with
  | nil =>
    intro r done cur h1 h2 h3 h4
    exact ⟨done, cur, by simpa [HtmlRenderer.add_text] using h1,
      by simpa [HtmlRenderer.add_text] using h2, h3, h4⟩
  | cons c t ih =>
    intro r done cur h1 h2 h3 h4
    rw [add_text_cons]
    by_cases hc : c = 10
    · subst hc
      refine ih (r.add_byte hs cb 10) (done ++ [cur ++ closeRep hs.length ++ [10]])
        (openSeq (hs.map cb)) ?_ ?_ ?_ ?_
      · rw [add_byte_newline]
        dsimp only
        rw [h1]
        simp [List.append_assoc]
      · rw [add_byte_newline]
        dsimp only
        rw [h2, offsetsOf_concat, h1]
        simp
        omega
      · intro l hl
        rcases List.mem_append.mp hl with hd | hn
        · exact h3 l hd
        · rcases List.mem_singleton.mp hn with rfl
          constructor
          · have hclose := h4.close_all [] SpanForest.empty
            have hlen : (hs.map cb).length = hs.length := List.length_map hs cb
            rw [hlen] at hclose
            simp only [List.append_nil] at hclose
            exact hclose.append (SpanForest.ofText tagFree_newline)
          · exact List.getLast?_concat _
      · refine OpenLine.opens (hs.map cb) ?_
        intro a ha
        obtain ⟨i, _, rfl⟩ := List.mem_map.mp ha
        exact hcb i
    · refine ih (r.add_byte hs cb c) done (cur ++ escapeSpec c) ?_ ?_ h3 ?_
      · rw [add_byte_not_newline r hs cb c hc]
        dsimp only
        rw [h1, List.append_assoc]
      · rw [add_byte_not_newline r hs cb c hc]
        exact h2
      · exact h4.append_forest (SpanForest.ofText (escapeSpec_tagFree c))

theorem run_forest (src : List Nat) (cb : Nat → List Nat) (hcb : ∀ i, TagFree (cb i)) :
    ∀ (events : List (Except Unit HighlightEvent)) (r : HtmlRenderer) (stack : List Nat)
      (done : List (List Nat)) (cur : List Nat) (r' : HtmlRenderer),
      HtmlRenderer.run src cb events r stack = .ok r' →
      eventsOk events stack.length = true →
      r.html = done.flatten ++ cur → r.lineOffsets = offsetsOf done →
      (∀ l ∈ done, SpanForest l ∧ l.getLast? = some 10) →
      OpenLine (stack.map cb) cur →
      ∃ done' cur', r'.html = done'.flatten ++ cur' ∧ r'.lineOffsets = offsetsOf done' ∧
        (∀ l ∈ done', SpanForest l ∧ l.getLast? = some 10) ∧ SpanForest cur' := by
  intro events
  induction events with
  | nil =>
    intro r stack done cur r' hrun hok h1 h2 h3 h4
    simp only [HtmlRenderer.run] at hrun
    cases hrun
    simp only [eventsOk, beq_iff_eq] at hok
    rw [List.length_eq_zero] at hok
    subst hok
    exact ⟨done, cur, h1, h2, h3, h4.sf_of_nil⟩
  | cons e rest ih =>
    intro r stack done cur r' hrun hok h1 h2 h3 h4
    match e with
    | .error u =>
      simp only [eventsOk] at hok
      exact absurd hok (by simp)
    | .ok (.highlightStart i) =>
      simp only [HtmlRenderer.run] at hrun
      simp only [eventsOk] at hok
      refine ih (r.start_highlight (cb i)) (stack ++ [i]) done (cur ++ spanOpen (cb i))
        r' hrun ?_ ?_ ?_ h3 ?_
      · simpa using hok
      · simp [HtmlRenderer.start_highlight, h1, List.append_assoc]
      · simp [HtmlRenderer.start_highlight, h2]
      · rw [List.map_append]
        have := OpenLine.push (stack.map cb) (cb i) cur [] h4 (hcb i) SpanForest.empty
        simpa using this
    | .ok .highlightEnd =>
      simp only [HtmlRenderer.run] at hrun
      simp only [eventsOk, Bool.and_eq_true, bne_iff_ne] at hok
      obtain ⟨hne, hok2⟩ := hok
      have hsne : stack ≠ [] := by
        intro hemp
        exact hne (by simp [hemp])
      have hsplit : stack.dropLast ++ [stack.getLast hsne] = stack :=
        List.dropLast_concat_getLast hsne
      refine ih r.end_highlight stack.dropLast done (cur ++ spanClose) r' hrun ?_ ?_ ?_ h3 ?_
      · have : stack.dropLast.length = stack.length - 1 := List.length_dropLast stack
        rw [this]
        exact hok2
      · simp [HtmlRenderer.end_highlight, h1, List.append_assoc]
      · simp [HtmlRenderer.end_highlight, h2]
      · have hmap : stack.map cb = stack.dropLast.map cb ++ [cb (stack.getLast hsne)] := by
          conv_lhs => rw [← hsplit]
          simp [List.map_append]
        rw [hmap] at h4
        exact h4.pop
    | .ok (.source s e) =>
      simp only [HtmlRenderer.run] at hrun
      simp only [eventsOk] at hok
      obtain ⟨done2, cur2, g1, g2, g3, g4⟩ :=
        add_text_forest cb hcb stack (byteSlice src s e) r done cur h1 h2 h3 h4
      exact ih _ stack done2 cur2 r' hrun hok g1 g2 g3 g4

/-- C5: for valid inputs — a registered language whose class strings are
free of tag delimiters, and an event stream that is balanced (every end
matches an open start, all regions closed, no error items) — every
line-span's content in the returned HTML is generated by the grammar of
properly matched, strictly nested span elements, so every `<span>` has a
matching `</span>`, nesting is strict, and no role span crosses a
`<span class=line>` boundary. -/
theorem render_well_formed
    (hl : HighlightConfiguration → List Nat → Except Unit (List (Except Unit HighlightEvent)))
    (m : Languages) (lang : String) (src : List Nat)
    (cfg : HighlightConfiguration) (classes : List String)
    (events : List (Except Unit HighlightEvent)) (out : List Nat)
    (hg : m.get lang = some (cfg, classes))
    (hhl : hl cfg src = .ok events)
    (hok : eventsOk events 0 = true)
    (htf : ∀ cl ∈ classes, TagFree (strBytes cl))
    (hout : Languages.render hl m lang src = some out) :
    ∃ ls, out = renderShell lang ls ∧ ∀ l ∈ ls, SpanForest l := by
  unfold Languages.render at hout
  simp only [hg, hhl, HtmlRenderer.render] at hout
  rcases hr : HtmlRenderer.run src (classAttr classes) events HtmlRenderer.new []
      with e | r2 <;>
    simp only [hr, Except.map] at hout
  · cases e
    exact absurd hout (by simp)
  · have hshape : out = renderShell lang (HtmlRenderer.finalize r2).lines :=
      (Option.some.inj hout).symm
    have hcb : ∀ i, TagFree (classAttr classes i) := classAttr_tagFree classes htf
    obtain ⟨done, cur, g1, g2, g3, g4⟩ :=
      run_forest src (classAttr classes) hcb events HtmlRenderer.new [] [] [] r2 hr
        (by simpa using hok) (by simp [HtmlRenderer.new])
        (by simp [HtmlRenderer.new, offsetsOf]) (by simp)
        (by simpa using OpenLine.base [] SpanForest.empty)
    obtain ⟨last, hls, hcase⟩ := finalize_lines r2 done cur g1 g2
    refine ⟨(HtmlRenderer.finalize r2).lines, hshape, ?_⟩
    rw [hls]
    intro l hlmem
    rcases List.mem_append.mp hlmem with hd | hn
    · exact (g3 l hd).1
    · rcases List.mem_singleton.mp hn with rfl
      rcases hcase with rfl | rfl
      · exact g4
      · exact g4.append (SpanForest.ofText tagFree_newline)

/-- C5 witness at a concrete render with one region spanning two lines. -/
theorem render_well_formed_witness :
    ∃ ls, strBytes "<pre class=language-x><code><span class=line><span class=string>a</span>\n</span><span class=line><span class=string>b</span>\n</span></code></pre>"
        = renderShell "x" ls ∧ ∀ l ∈ ls, SpanForest l :=
  render_well_formed exHlSpan exM "x" [97, 10, 98] exEntry (names_to_classes ["string"])
    [.ok (.highlightStart 0), .ok (.source 0 3), .ok .highlightEnd] _
    (by decide) rfl (by decide) (by decide) (by decide)
